import Mathlib

/-!
# Verification of the hl-minutes incremental candle fetcher

Shallow embedding of `src/fetch_minutes.py` and `src/config.py`:
the dataset merge/writer (`save_parquet_incremental`), the retry wrapper
(`safe_call_with_retry`), the checkpoint store (`save_checkpoint`), the
instrument selector (`get_available_perp_coins` / `get_top_volume_coins`)
and the per-key chunked fetch loop of `fetch_all`.
-/

namespace HLMinutes

/-! ## Configuration (`src/config.py`) -/

/-- `config.YEARS_BACK`: historical horizon in years on first run. -/
def YEARS_BACK : Int := 3

/-- `config.CHUNK_HOURS`: width of one fetch chunk, in hours. -/
def CHUNK_HOURS : Int := 24

/-- `config.CHECKPOINT_FILE`. -/
def CHECKPOINT_FILE : String := "checkpoint.json"

/-! ## Data model

One OHLCV candle row.  The writer only inspects the open time `t` (dedup
key and sort key) and coerces `t` and `T` to int64; every other column
(open/high/low/close prices, volume, …) is carried along opaquely, here as
a single `payload` field. -/

/-- One candle row: open time `t` (ms epoch), close time `T` (ms epoch),
remaining columns carried opaquely. -/
structure Row where
  t : Int
  T : Int
  payload : String
deriving DecidableEq, Repr

/-! ## Dataset Merge/Writer (`save_parquet_incremental`, lines 104–123) -/

/-- `df.drop_duplicates(subset=["t"])` on the rows still to process, given
the open times `seen` so far: keeps the first occurrence of each open time,
preserving order (pandas' default `keep="first"`). -/
def dropDupByT (seen : List Int) : List Row → List Row
  | [] => []
  | r :: rs =>
      if r.t ∈ seen then dropDupByT seen rs
      else r :: dropDupByT (r.t :: seen) rs

/-- The ordering the writer sorts by: ascending open time. -/
def tLE (a b : Row) : Prop := a.t ≤ b.t

instance : DecidableRel tLE := fun a b => inferInstanceAs (Decidable (a.t ≤ b.t))

instance : IsTotal Row tLE := ⟨fun a b => Int.le_total a.t b.t⟩

instance : IsTrans Row tLE := ⟨fun _ _ _ h h' => Int.le_trans h h'⟩

/-- `df.sort_values("t")`: sort the rows ascending by open time. -/
def sortByT (rows : List Row) : List Row :=
  rows.insertionSort tLE

/-- `save_parquet_incremental(path, df_new)`: when the file at `path`
exists with rows `old = some dfOld`, concatenate old rows with the new
ones, drop duplicate open times keeping the first occurrence, sort
ascending by `t`, and write the result back; when the file is absent
(`old = none`), write `df_new` as-is.  Returns the rows written. -/
def save_parquet_incremental (old : Option (List Row)) (dfNew : List Row) : List Row :=
  match old with
  | some dfOld => sortByT (dropDupByT [] (dfOld ++ dfNew))
  | none => dfNew

/-- Rows strictly ascending by open time `t` (the spec's sort invariant). -/
def StrictAscByT (l : List Row) : Prop :=
  l.Pairwise (fun a b => a.t < b.t)

instance (l : List Row) : Decidable (StrictAscByT l) :=
  inferInstanceAs (Decidable (l.Pairwise _))

/-! ## Chunked Fetch Loop: resume point (`fetch_all`, lines 144–147) -/

/-- The start of the chunked fetch for one key (`fetch_all` lines 144–147):
the stored checkpoint when one exists for the key, otherwise `now_ms`
minus `YEARS_BACK` years of 365 days, in milliseconds. -/
def initialStartMs (nowMs : Int) (ckpt : Option Int) : Int :=
  match ckpt with
  | some c => c
  | none => nowMs - YEARS_BACK * 365 * 24 * 3600 * 1000

/-! ## Rate-Limited API Client (`safe_call_with_retry`, lines 79–102) -/

/-- Outcome of one raw attempt at the wrapped remote call. -/
inductive Attempt where
  /-- the call returned normally with these rows -/
  | success (rows : List Row)
  /-- `ClientError` with `status_code == 429` (rate limit) -/
  | rateLimit
  /-- `ClientError` with any other status: re-raised -/
  | failure (err : String)
deriving DecidableEq, Repr

/-- Result of `safe_call_with_retry`. -/
inductive CallResult where
  /-- some attempt succeeded and its value is returned -/
  | ok (rows : List Row)
  /-- the final `RuntimeError`: every attempt hit a 429 -/
  | exhausted
  /-- a non-429 `ClientError` propagated out of the wrapper -/
  | fatal (err : String)
deriving DecidableEq, Repr

/-- The retry loop of `safe_call_with_retry` from attempt number `attempt`
(`for attempt in range(1, max_retries + 1)`): a successful call returns its
value, a 429 sleeps and retries, any other error propagates; once the
attempts are used up the trailing `RuntimeError` is raised. -/
def safeCallFrom (outcome : Nat → Attempt) (maxRetries : Nat) (attempt : Nat) : CallResult :=
  if attempt > maxRetries then .exhausted
  else
    match outcome attempt with
    | .success v => .ok v
    | .rateLimit => safeCallFrom outcome maxRetries (attempt + 1)
    | .failure e => .fatal e
termination_by maxRetries + 1 - attempt

/-- `safe_call_with_retry(func, max_retries)`: run the retry loop starting
at attempt 1.  `outcome a` is what the wrapped call does on its `a`-th
attempt. -/
def safe_call_with_retry (outcome : Nat → Attempt) (maxRetries : Nat) : CallResult :=
  safeCallFrom outcome maxRetries 1

/-- The backoff delay (seconds) before the retry that follows the
`attempt`-th 429: `min(5 * attempt, 30) + random.uniform(0, 1)`
(line 94). -/
def sleepTime (attempt : Nat) (jitter : ℚ) : ℚ :=
  min (5 * (attempt : ℚ)) 30 + jitter

/-! ## Checkpoint Store (`load_checkpoint` / `save_checkpoint`, lines 69–77) -/

/-- A file-system operation performed by the checkpoint store. -/
inductive FileOp where
  /-- `open(path, "w")`: opens the file for writing, truncating it -/
  | openTrunc (path : String)
  /-- write `data` into the file at `path` -/
  | write (path : String) (data : String)
  /-- atomically rename `src` onto `dst` -/
  | rename (src dst : String)
deriving DecidableEq, Repr

/-- `save_checkpoint(ckpt)`: the file operations it performs, in order —
open `CHECKPOINT_FILE` for writing (truncating it in place) and dump the
serialization of the full mapping into it.  `dumps` is the JSON
serializer (`json.dump(ckpt, f, indent=2)`), `ckpt` the full mapping. -/
def save_checkpoint_ops (dumps : List (String × Int) → String)
    (ckpt : List (String × Int)) : List FileOp :=
  [.openTrunc CHECKPOINT_FILE, .write CHECKPOINT_FILE (dumps ckpt)]

/-- Modelled from the spec: the atomic-save discipline the spec requires of
`save` — the target file is never opened or written directly; the new
content is installed by renaming a temporary path onto the target. -/
def WritesViaTempRename (ops : List FileOp) (target : String) : Prop :=
  FileOp.openTrunc target ∉ ops ∧ (∀ d, FileOp.write target d ∉ ops) ∧
    ∃ tmp, tmp ≠ target ∧ FileOp.rename tmp target ∈ ops

/-! ## Chunked Fetch Loop (`fetch_all`, lines 131–175), per key -/

/-- An error aborting the run, thrown out of `safe_call_with_retry`. -/
inductive FetchErr where
  /-- the `RuntimeError` raised after `max_retries` consecutive 429s -/
  | rateLimitExhausted
  /-- a non-429 `ClientError` re-raised by the wrapper -/
  | clientError (err : String)
deriving DecidableEq, Repr

/-- One observable event of the per-key fetch loop, in program order. -/
inductive Event where
  /-- `save_parquet_incremental` ran for the chunk ending at `endMs`,
  merging `rows` -/
  | merge (endMs : Int) (rows : List Row)
  /-- `ckpt[key] = end_ms; save_checkpoint(ckpt)` for the chunk ending at
  `endMs` -/
  | ckptSet (endMs : Int)
deriving DecidableEq, Repr

/-- Final state of the per-key fetch loop: the key's checkpoint value, the
key's dataset file contents, and the trace of events, either after the
loop completed or at the abort point. -/
inductive FetchResult where
  | completed (ckpt : Option Int) (ds : Option (List Row)) (trace : List Event)
  | aborted (err : FetchErr) (ckpt : Option Int) (ds : Option (List Row)) (trace : List Event)
deriving DecidableEq, Repr

/-- Prepend earlier events to a loop result's trace. -/
def FetchResult.withTrace (evs : List Event) : FetchResult → FetchResult
  | .completed c d tr => .completed c d (evs ++ tr)
  | .aborted e c d tr => .aborted e c d (evs ++ tr)

/-- The trace of a loop result. -/
def FetchResult.trace : FetchResult → List Event
  | .completed _ _ tr => tr
  | .aborted _ _ _ tr => tr

/-- The key's checkpoint value in a loop result. -/
def FetchResult.ckpt : FetchResult → Option Int
  | .completed c _ _ => c
  | .aborted _ c _ _ => c

/-- The `while start_ms < now_ms` loop of `fetch_all` (lines 149–175) for
one `(coin, interval)` key: compute `end_ms = min(start_ms + chunk_ms,
now_ms)`, fetch the chunk, merge the returned rows into the dataset when
non-empty, then set the key's checkpoint to `end_ms` and save it, and
continue from `end_ms`.  An exception out of the chunk fetch aborts the
run with the checkpoint and dataset as they were before that chunk.
`fetch s e` is the outcome of the (retry-wrapped) call for `[s, e]`; a
positive chunk width is required for the loop to terminate. -/
def fetchLoop (fetch : Int → Int → Except FetchErr (List Row)) (nowMs chunkMs : Int)
    (hchunk : 0 < chunkMs) (startMs : Int) (ckpt : Option Int) (ds : Option (List Row)) :
    FetchResult :=
  if h : startMs < nowMs then
    match fetch startMs (min (startMs + chunkMs) nowMs) with
    | .error e => .aborted e ckpt ds []
    | .ok data =>
        (fetchLoop fetch nowMs chunkMs hchunk (min (startMs + chunkMs) nowMs)
            (some (min (startMs + chunkMs) nowMs))
            (if data.isEmpty then ds
             else some (save_parquet_incremental ds data))).withTrace
          ((if data.isEmpty then []
            else [Event.merge (min (startMs + chunkMs) nowMs) data]) ++
            [Event.ckptSet (min (startMs + chunkMs) nowMs)])
  else .completed ckpt ds []
termination_by (nowMs - startMs).toNat
decreasing_by
  omega

/-- The chunk fetch as `fetch_all` performs it (lines 154–160):
`info.candles_snapshot` wrapped in `safe_call_with_retry` with the default
`max_retries = 10`; `attempts s e a` is the outcome of the `a`-th raw
attempt for the chunk `[s, e]`. -/
def fetchChunk (attempts : Int → Int → Nat → Attempt) (s e : Int) :
    Except FetchErr (List Row) :=
  match safe_call_with_retry (attempts s e) 10 with
  | .ok rows => .ok rows
  | .exhausted => .error .rateLimitExhausted
  | .fatal err => .error (.clientError err)

/-- Well-formedness of a per-key fetch trace with respect to the chunk
fetch oracle and a strict lower bound `lo` for checkpoint writes
(instantiated with the key's pre-run resume point): checkpoint writes
carry strictly increasing values all above `lo`; a checkpoint write with
no preceding merge happens only for a chunk whose fetch returned no rows;
and a chunk with non-empty rows has them merged immediately before —
never after — that chunk's checkpoint write.  Each chunk starts at the
previous checkpoint value, so `lo` is also the running chunk start. -/
inductive GoodTrace (fetch : Int → Int → Except FetchErr (List Row)) :
    Int → List Event → Prop where
  | nil (lo : Int) : GoodTrace fetch lo []
  | ckptOnly (lo e : Int) (tl : List Event) :
      lo < e → fetch lo e = .ok [] → GoodTrace fetch e tl →
      GoodTrace fetch lo (.ckptSet e :: tl)
  | mergeThenCkpt (lo e : Int) (rows : List Row) (tl : List Event) :
      lo < e → rows ≠ [] → fetch lo e = .ok rows → GoodTrace fetch e tl →
      GoodTrace fetch lo (.merge e rows :: .ckptSet e :: tl)

/-- The checkpoint values written along a trace, in order. -/
def ckptWrites : List Event → List Int
  | [] => []
  | .ckptSet v :: tl => v :: ckptWrites tl
  | .merge _ _ :: tl => ckptWrites tl

/-! ## Instrument Selector (`get_available_perp_coins` /
`get_top_volume_coins`, lines 19–60) -/

/-- The comparison `volume_list.sort(key=lambda x: x[1], reverse=True)`
sorts by: descending daily notional volume (`dayNtlVlm`). -/
def descVol (a b : String × ℚ) : Bool :=
  decide (b.2 ≤ a.2)

/-- The volume list after the stable descending sort by volume
(Python's `list.sort` is stable; `reverse=True` keeps equal keys in input
order). -/
def sortedUniverse (univ : List (String × ℚ)) : List (String × ℚ) :=
  univ.mergeSort descVol

/-- `get_top_volume_coins(info, top_n)`: from the zipped
`(name, dayNtlVlm)` pairs of `meta_and_asset_ctxs()`, sort descending by
volume and return the first `top_n` names. -/
def get_top_volume_coins (univ : List (String × ℚ)) (top_n : Nat) : List String :=
  ((sortedUniverse univ).take top_n).map Prod.fst

/-- `get_available_perp_coins(info)`: when `config.COINS` is not `None`
it is returned unchanged; only when it is `None` does the automatic
top-20-by-volume selection run. -/
def get_available_perp_coins (configCoins : Option (List String))
    (univ : List (String × ℚ)) : List String :=
  match configCoins with
  | some cs => cs
  | none => get_top_volume_coins univ 20

/-! ## Helper lemmas: deduplication by open time -/

/-- Every row surviving `dropDupByT` comes from the input list. -/
theorem dropDupByT_subset (seen : List Int) :
    ∀ l : List Row, ∀ x ∈ dropDupByT seen l, x ∈ l := by
  intro l
  induction l generalizing seen with
  | nil => intro x hx; exact absurd hx (by simp [dropDupByT])
  | cons r rs ih =>
      intro x hx
      rw [dropDupByT] at hx
      by_cases hm : r.t ∈ seen
      · rw [if_pos hm] at hx
        exact List.mem_cons_of_mem r (ih seen x hx)
      · rw [if_neg hm] at hx
        rcases List.mem_cons.mp hx with h | h
        · exact h ▸ List.mem_cons_self r rs
        · exact List.mem_cons_of_mem r (ih (r.t :: seen) x h)

/-- After `dropDupByT`, the open times are pairwise distinct and avoid
`seen`. -/
theorem dropDupByT_nodup_keys (seen : List Int) :
    ∀ l : List Row, ((dropDupByT seen l).map Row.t).Nodup ∧
      ∀ x ∈ dropDupByT seen l, x.t ∉ seen := by
  intro l
  induction l generalizing seen with
  | nil => simp [dropDupByT]
  | cons r rs ih =>
      rw [dropDupByT]
      by_cases hm : r.t ∈ seen
      · rw [if_pos hm]
        exact ih seen
      · rw [if_neg hm]
        obtain ⟨hnd, hav⟩ := ih (r.t :: seen)
        refine ⟨?_, ?_⟩
        · refine List.nodup_cons.mpr ⟨?_, hnd⟩
          intro hmem
          rcases List.mem_map.mp hmem with ⟨y, hy, hyt⟩
          exact hav y hy (hyt ▸ List.mem_cons_self _ _)
        · intro x hx
          rcases List.mem_cons.mp hx with h | h
          · exact h ▸ hm
          · exact fun hs => hav x h (List.mem_cons_of_mem _ hs)

/-- Membership of an open time in the deduplicated list. -/
theorem mem_keys_dropDupByT (seen : List Int) :
    ∀ (l : List Row) (a : Int),
      a ∈ (dropDupByT seen l).map Row.t ↔ a ∈ l.map Row.t ∧ a ∉ seen := by
  intro l
  induction l generalizing seen with
  | nil => simp [dropDupByT]
  | cons r rs ih =>
      intro a
      rw [dropDupByT]
      by_cases hm : r.t ∈ seen
      · rw [if_pos hm, ih seen a]
        simp only [List.map_cons, List.mem_cons]
        constructor
        · rintro ⟨h1, h2⟩; exact ⟨Or.inr h1, h2⟩
        · rintro ⟨h1 | h1, h2⟩
          · subst h1; exact absurd hm h2
          · exact ⟨h1, h2⟩
      · rw [if_neg hm]
        simp only [List.map_cons, List.mem_cons]
        rw [ih (r.t :: seen) a]
        simp only [List.mem_cons]
        constructor
        · rintro (h | ⟨h1, h2⟩)
          · subst h; exact ⟨Or.inl rfl, hm⟩
          · exact ⟨Or.inr h1, fun hs => h2 (Or.inr hs)⟩
        · rintro ⟨h1 | h1, h2⟩
          · exact Or.inl h1
          · by_cases hra : a = r.t
            · exact Or.inl hra
            · exact Or.inr ⟨h1, fun hs => hs.elim hra h2⟩

/-- If every remaining row's open time has already been seen, nothing
survives. -/
theorem dropDupByT_eq_nil (seen : List Int) :
    ∀ l : List Row, (∀ y ∈ l, y.t ∈ seen) → dropDupByT seen l = [] := by
  intro l
  induction l generalizing seen with
  | nil => intro _; rfl
  | cons r rs ih =>
      intro h
      rw [dropDupByT, if_pos (h r (List.mem_cons_self r rs))]
      exact ih seen fun y hy => h y (List.mem_cons_of_mem r hy)

/-- Deduplicating `l ++ extra` leaves exactly `l` when `l` already has
pairwise-distinct open times avoiding `seen` and every row of `extra`
repeats an open time of `l` or one in `seen`. -/
theorem dropDupByT_append_absorb (extra : List Row) :
    ∀ (l : List Row) (seen : List Int),
      (l.map Row.t).Nodup → (∀ x ∈ l, x.t ∉ seen) →
      (∀ y ∈ extra, y.t ∈ l.map Row.t ∨ y.t ∈ seen) →
      dropDupByT seen (l ++ extra) = l := by
  intro l
  induction l with
  | nil =>
      intro seen _ _ hextra
      refine dropDupByT_eq_nil seen extra fun y hy => ?_
      rcases hextra y hy with h | h
      · exact absurd h (by simp)
      · exact h
  | cons r rs ih =>
      intro seen hnd hav hextra
      rw [List.map_cons] at hnd
      obtain ⟨hr, hnd'⟩ := List.nodup_cons.mp hnd
      rw [List.cons_append, dropDupByT,
        if_neg (hav r (List.mem_cons_self r rs))]
      congr 1
      refine ih (r.t :: seen) hnd' ?_ ?_
      · intro x hx hmem
        rcases List.mem_cons.mp hmem with h | h
        · exact hr (by rw [← h]; exact List.mem_map_of_mem Row.t hx)
        · exact hav x (List.mem_cons_of_mem r hx) h
      · intro y hy
        rcases hextra y hy with h | h
        · rw [List.map_cons] at h
          rcases List.mem_cons.mp h with h1 | h1
          · exact Or.inr (by rw [h1]; exact List.mem_cons_self _ _)
          · exact Or.inl h1
        · exact Or.inr (List.mem_cons_of_mem _ h)

/-- Filtering the deduplicated list at an unseen open time yields exactly
the first matching row of the input (pandas `keep="first"`). -/
theorem filter_dropDupByT (t₀ : Int) :
    ∀ (l : List Row) (seen : List Int), t₀ ∉ seen →
      (dropDupByT seen l).filter (fun x => x.t == t₀) =
        (l.find? (fun x => x.t == t₀)).toList := by
  intro l
  induction l with
  | nil => intro seen _; rfl
  | cons r rs ih =>
      intro seen hns
      rw [dropDupByT]
      by_cases hm : r.t ∈ seen
      · have hrt : ¬ r.t = t₀ := fun h => hns (h ▸ hm)
        rw [if_pos hm, List.find?_cons_of_neg _ (by simp [hrt]), ih seen hns]
      · rw [if_neg hm]
        by_cases hrt : r.t = t₀
        · rw [List.filter_cons_of_pos (by simp [hrt]),
            List.find?_cons_of_pos _ (by simp [hrt])]
          have hnil :
              (dropDupByT (r.t :: seen) rs).filter (fun x => x.t == t₀) = [] := by
            refine List.filter_eq_nil_iff.mpr fun x hx h => ?_
            exact (dropDupByT_nodup_keys (r.t :: seen) rs).2 x hx
              (by rw [beq_iff_eq.mp h, ← hrt]; exact List.mem_cons_self _ _)
          rw [hnil]
          rfl
        · rw [List.filter_cons_of_neg (by simp [hrt]),
            List.find?_cons_of_neg _ (by simp [hrt])]
          exact ih (r.t :: seen) fun hs =>
            (List.mem_cons.mp hs).elim (fun h => hrt h.symm) hns

/-! ## Helper lemmas: sorting by open time -/

/-- `sortByT` permutes its input. -/
theorem sortByT_perm (l : List Row) : List.Perm (sortByT l) l :=
  List.perm_insertionSort tLE l

/-- `sortByT` sorts by `tLE`. -/
theorem sortByT_sorted (l : List Row) : List.Sorted tLE (sortByT l) :=
  List.sorted_insertionSort tLE l

/-- `sortByT` fixes an already-sorted list. -/
theorem sortByT_eq_of_sorted {l : List Row} (h : List.Sorted tLE l) : sortByT l = l :=
  List.Sorted.insertionSort_eq h

/-- A sorted list with pairwise-distinct open times is strictly ascending
by open time. -/
theorem strictAsc_of_sorted_nodup {l : List Row} (hs : List.Sorted tLE l)
    (hnd : (l.map Row.t).Nodup) : StrictAscByT l := by
  have hne : l.Pairwise fun a b => a.t ≠ b.t := List.pairwise_map.mp hnd
  exact (hs.and hne).imp fun h => lt_of_le_of_ne h.1 h.2

/-- The existing-file branch of the writer produces a strictly ascending
row list. -/
theorem strictAsc_merge (dfOld dfNew : List Row) :
    StrictAscByT (sortByT (dropDupByT [] (dfOld ++ dfNew))) := by
  have hnd : ((dropDupByT [] (dfOld ++ dfNew)).map Row.t).Nodup :=
    (dropDupByT_nodup_keys [] (dfOld ++ dfNew)).1
  refine strictAsc_of_sorted_nodup (sortByT_sorted _) ?_
  exact ((sortByT_perm (dropDupByT [] (dfOld ++ dfNew))).map Row.t).nodup_iff.mpr hnd

/-- Re-merging rows whose open times all occur in an already deduplicated,
sorted list leaves it unchanged. -/
theorem merge_absorb {base extra : List Row}
    (hnd : (base.map Row.t).Nodup) (hs : List.Sorted tLE base)
    (hmem : ∀ y ∈ extra, y.t ∈ base.map Row.t) :
    sortByT (dropDupByT [] (base ++ extra)) = base := by
  rw [dropDupByT_append_absorb extra base [] hnd (by simp)
    (fun y hy => Or.inl (hmem y hy))]
  exact sortByT_eq_of_sorted hs

/-! ## C1: resume point of the chunked fetch loop -/

/-- C1 counterexample: with a checkpoint of 555 recorded, the first
chunk's `start_ms` is 555 itself, not `checkpoint + 1` as the claim
states. -/
theorem resume_point_cex :
    initialStartMs 1000000 (some 555) = 555 ∧
      ¬ initialStartMs 1000000 (some 555) = 555 + 1 := by
  decide

/-- C1 (amended): when a checkpoint exists for the key, the first chunk's
`start_ms` equals the checkpoint exactly (re-fetching the boundary row and
relying on the merge step's dedup by `t`); when no checkpoint exists,
`start_ms = now_ms - YEARS_BACK * 365d` in milliseconds, with the
configured horizon `YEARS_BACK = 3`. -/
theorem resume_point_amended (nowMs c : Int) :
    initialStartMs nowMs (some c) = c ∧
      initialStartMs nowMs none = nowMs - YEARS_BACK * 365 * 24 * 3600 * 1000 ∧
      YEARS_BACK = 3 :=
  ⟨rfl, rfl, rfl⟩

/-! ## C2: sort invariant of the writer -/

/-- C2 counterexample: when no file exists yet, `save_parquet_incremental`
writes `df_new` as-is, so unsorted new rows land on disk unsorted: the
written dataset for `new_rows = [t=2, t=1]` is not strictly ascending by
`t`. -/
theorem sort_invariant_cex :
    save_parquet_incremental none [⟨2, 2, ""⟩, ⟨1, 1, ""⟩] = [⟨2, 2, ""⟩, ⟨1, 1, ""⟩] ∧
      ¬ StrictAscByT (save_parquet_incremental none [⟨2, 2, ""⟩, ⟨1, 1, ""⟩]) := by
  exact ⟨rfl, by decide⟩

/-- C2 (amended): when the dataset file already exists, the rows written
by `save_parquet_incremental` are strictly ascending by open time `t` with
no duplicate `t`; when the file is absent, the new rows are written
unchanged (so the invariant then holds only if `new_rows` itself is
strictly ascending). -/
theorem sort_invariant_amended :
    (∀ dfOld dfNew, StrictAscByT (save_parquet_incremental (some dfOld) dfNew)) ∧
      ∀ dfNew, save_parquet_incremental none dfNew = dfNew :=
  ⟨fun dfOld dfNew => strictAsc_merge dfOld dfNew, fun _ => rfl⟩

/-! ## C3: idempotent merge -/

/-- C3 counterexample: starting from an absent file, merging
`new_rows = [r, r]` once writes `[r, r]`, but merging it a second time
dedups down to `[r]`: twice is not the same as once. -/
theorem idempotent_cex :
    save_parquet_incremental none [⟨1, 1, ""⟩, ⟨1, 1, ""⟩] = [⟨1, 1, ""⟩, ⟨1, 1, ""⟩] ∧
      save_parquet_incremental
          (some (save_parquet_incremental none [⟨1, 1, ""⟩, ⟨1, 1, ""⟩]))
          [⟨1, 1, ""⟩, ⟨1, 1, ""⟩] = [⟨1, 1, ""⟩] ∧
      ([⟨1, 1, ""⟩] : List Row) ≠ [⟨1, 1, ""⟩, ⟨1, 1, ""⟩] := by
  refine ⟨rfl, ?_, by decide⟩
  decide

/-- C3 (amended): merging the same `new_rows` twice equals merging once
whenever the dataset file already exists before the first merge; when it
is absent, the same holds provided `new_rows` is strictly ascending by `t`
(the shape the remote source actually returns). -/
theorem idempotent_amended :
    (∀ dfOld dfNew,
        save_parquet_incremental (some (save_parquet_incremental (some dfOld) dfNew)) dfNew
          = save_parquet_incremental (some dfOld) dfNew) ∧
      ∀ dfNew, StrictAscByT dfNew →
        save_parquet_incremental (some (save_parquet_incremental none dfNew)) dfNew
          = save_parquet_incremental none dfNew := by
  constructor
  · intro dfOld dfNew
    show sortByT (dropDupByT [] (sortByT (dropDupByT [] (dfOld ++ dfNew)) ++ dfNew)) = _
    have hnd0 : ((dropDupByT [] (dfOld ++ dfNew)).map Row.t).Nodup :=
      (dropDupByT_nodup_keys [] (dfOld ++ dfNew)).1
    have hperm := (sortByT_perm (dropDupByT [] (dfOld ++ dfNew))).map Row.t
    refine merge_absorb (hperm.nodup_iff.mpr hnd0) (sortByT_sorted _) ?_
    intro y hy
    refine hperm.mem_iff.mpr ((mem_keys_dropDupByT [] (dfOld ++ dfNew) y.t).mpr ⟨?_, by simp⟩)
    rw [List.map_append]
    exact List.mem_append_right _ (List.mem_map_of_mem Row.t hy)
  · intro dfNew h
    show sortByT (dropDupByT [] (dfNew ++ dfNew)) = dfNew
    have hnd : (dfNew.map Row.t).Nodup :=
      List.pairwise_map.mpr (h.imp fun hlt => ne_of_lt hlt)
    exact merge_absorb hnd (h.imp fun hlt => le_of_lt hlt)
      fun y hy => List.mem_map_of_mem Row.t hy

/-- C3 witness: the amended theorem applied at a concrete strictly
ascending batch. -/
theorem idempotent_amended_witness :
    save_parquet_incremental (some (save_parquet_incremental none [⟨1, 1, "x"⟩]))
        [⟨1, 1, "x"⟩]
      = save_parquet_incremental none [⟨1, 1, "x"⟩] :=
  idempotent_amended.2 [⟨1, 1, "x"⟩] (by decide)

/-! ## C10: duplicate open times keep the earlier-merged row -/

/-- C10: when an existing row and a newly fetched row share an open time,
the merged dataset keeps exactly the first existing row with that open
time (pandas `drop_duplicates` keeps the first occurrence of
`old ++ new`): first-write-wins. -/
theorem first_write_wins (dfOld dfNew : List Row) (t₀ : Int)
    (h : t₀ ∈ dfOld.map Row.t) :
    ∃ r, dfOld.find? (fun x => x.t == t₀) = some r ∧
      (save_parquet_incremental (some dfOld) dfNew).filter (fun x => x.t == t₀) = [r] := by
  have hsome : (dfOld.find? fun x => x.t == t₀).isSome := by
    rw [List.find?_isSome]
    rcases List.mem_map.mp h with ⟨x, hx, hxt⟩
    exact ⟨x, hx, by simp [hxt]⟩
  obtain ⟨r, hr⟩ := Option.isSome_iff_exists.mp hsome
  refine ⟨r, hr, ?_⟩
  have hfind : (dfOld ++ dfNew).find? (fun x => x.t == t₀) = some r := by
    rw [List.find?_append, hr]
    rfl
  have hfilter : (dropDupByT [] (dfOld ++ dfNew)).filter (fun x => x.t == t₀) = [r] := by
    rw [filter_dropDupByT t₀ (dfOld ++ dfNew) [] (by simp), hfind]
    rfl
  have hperm :=
    (sortByT_perm (dropDupByT [] (dfOld ++ dfNew))).filter (fun x => x.t == t₀)
  rw [hfilter] at hperm
  exact List.perm_singleton.mp hperm

/-- C10 witness: concrete collision at `t = 1`; the kept row is the
existing one. -/
theorem first_write_wins_witness :
    ∃ r, [Row.mk 1 1 "old"].find? (fun x => x.t == 1) = some r ∧
      (save_parquet_incremental (some [Row.mk 1 1 "old"]) [Row.mk 1 1 "new"]).filter
          (fun x => x.t == 1) = [r] :=
  first_write_wins [Row.mk 1 1 "old"] [Row.mk 1 1 "new"] 1 (by decide)

/-! ## Helper lemmas: the retry wrapper -/

/-- The retry loop exhausts its retries exactly when every remaining
attempt hits a 429. -/
theorem safeCallFrom_exhausted_iff (outcome : Nat → Attempt) (m : Nat) :
    ∀ (n attempt : Nat), m + 1 - attempt ≤ n →
      (safeCallFrom outcome m attempt = .exhausted ↔
        ∀ a, attempt ≤ a → a ≤ m → outcome a = .rateLimit) := by
  intro n
  induction n with
  | zero =>
      intro attempt hn
      rw [safeCallFrom, if_pos (by omega)]
      exact ⟨fun _ a ha ham => absurd ham (by omega), fun _ => rfl⟩
  | succ n ih =>
      intro attempt hn
      by_cases hgt : attempt > m
      · rw [safeCallFrom, if_pos hgt]
        exact ⟨fun _ a ha ham => absurd ham (by omega), fun _ => rfl⟩
      · rw [safeCallFrom, if_neg hgt]
        rcases ho : outcome attempt with v | _ | e
        · simp only [ho]
          constructor
          · intro hc; simp at hc
          · intro hall
            have := hall attempt le_rfl (by omega)
            rw [ho] at this
            exact Attempt.noConfusion this
        · simp only [ho]
          rw [ih (attempt + 1) (by omega)]
          constructor
          · intro hall a ha ham
            rcases Nat.eq_or_lt_of_le ha with he | hlt
            · rw [← he]; exact ho
            · exact hall a (by omega) ham
          · intro hall a ha ham
            exact hall a (by omega) ham
        · simp only [ho]
          constructor
          · intro hc; simp at hc
          · intro hall
            have := hall attempt le_rfl (by omega)
            rw [ho] at this
            exact Attempt.noConfusion this

/-- Consecutive 429 attempts are skipped by the retry loop. -/
theorem safeCallFrom_skip (outcome : Nat → Attempt) (m : Nat) :
    ∀ (n attempt a : Nat), a - attempt ≤ n → attempt ≤ a → a ≤ m + 1 →
      (∀ b, attempt ≤ b → b < a → outcome b = .rateLimit) →
      safeCallFrom outcome m attempt = safeCallFrom outcome m a := by
  intro n
  induction n with
  | zero =>
      intro attempt a h1 h2 _ _
      have he : attempt = a := by omega
      rw [he]
  | succ n ih =>
      intro attempt a h1 h2 h3 hrl
      rcases Nat.eq_or_lt_of_le h2 with he | hlt
      · rw [he]
      · rw [safeCallFrom, if_neg (by omega)]
        have ho := hrl attempt le_rfl hlt
        simp only [ho]
        exact ih (attempt + 1) a (by omega) (by omega) h3
          fun b hb1 hb2 => hrl b (by omega) hb2

/-! ## C5: contract of the retry wrapper -/

/-- C5: with the default `max_retries = 10`, `safe_call_with_retry`
raises the retries-exhausted `RuntimeError` exactly when all 10 attempts
hit a 429; the first attempt to fail with a non-429 error propagates it
immediately; and the first successful attempt returns the call's value. -/
theorem retry_wrapper_contract (outcome : Nat → Attempt) :
    (safe_call_with_retry outcome 10 = .exhausted ↔
        ∀ a, 1 ≤ a → a ≤ 10 → outcome a = .rateLimit) ∧
      (∀ a e, 1 ≤ a → a ≤ 10 →
        (∀ b, 1 ≤ b → b < a → outcome b = .rateLimit) → outcome a = .failure e →
        safe_call_with_retry outcome 10 = .fatal e) ∧
      ∀ a v, 1 ≤ a → a ≤ 10 →
        (∀ b, 1 ≤ b → b < a → outcome b = .rateLimit) → outcome a = .success v →
        safe_call_with_retry outcome 10 = .ok v := by
  refine ⟨?_, ?_, ?_⟩
  · exact safeCallFrom_exhausted_iff outcome 10 10 1 (by omega)
  · intro a e h1 h10 hrl ho
    show safeCallFrom outcome 10 1 = .fatal e
    rw [safeCallFrom_skip outcome 10 a 1 a (by omega) h1 (by omega) hrl,
      safeCallFrom, if_neg (by omega)]
    simp only [ho]
  · intro a v h1 h10 hrl ho
    show safeCallFrom outcome 10 1 = .ok v
    rw [safeCallFrom_skip outcome 10 a 1 a (by omega) h1 (by omega) hrl,
      safeCallFrom, if_neg (by omega)]
    simp only [ho]

/-- C5 witness: every attempt rate-limited forces the exhausted result. -/
theorem retry_wrapper_contract_witness :
    safe_call_with_retry (fun _ => Attempt.rateLimit) 10 = CallResult.exhausted :=
  (retry_wrapper_contract fun _ => Attempt.rateLimit).1.mpr fun _ _ _ => rfl

/-! ## C6: backoff bound and monotonicity -/

/-- C6: for attempts `1 ≤ a ≤ 10` and jitter in `[0, 1]`, the backoff
delay equals `min(5a, 30) + jitter`, never exceeds 31 seconds, and is
non-decreasing in the attempt number. -/
theorem backoff_bound (a : Nat) (jitter : ℚ) (h1 : 1 ≤ a) (h10 : a ≤ 10)
    (hj0 : 0 ≤ jitter) (hj1 : jitter ≤ 1) :
    sleepTime a jitter = min (5 * (a : ℚ)) 30 + jitter ∧
      sleepTime a jitter ≤ 31 ∧
      ∀ b : Nat, a ≤ b → sleepTime a jitter ≤ sleepTime b jitter := by
  refine ⟨rfl, ?_, ?_⟩
  · have hmin : min (5 * (a : ℚ)) 30 ≤ 30 := min_le_right _ _
    unfold sleepTime
    linarith
  · intro b hab
    have hcast : (a : ℚ) ≤ (b : ℚ) := Nat.cast_le.mpr hab
    have hmin : min (5 * (a : ℚ)) 30 ≤ min (5 * (b : ℚ)) 30 :=
      min_le_min (by linarith) le_rfl
    unfold sleepTime
    linarith

/-- C6 witness: the bounds at attempt 3 with jitter 1/2. -/
theorem backoff_bound_witness :
    sleepTime 3 (1 / 2) = min (5 * ((3 : Nat) : ℚ)) 30 + 1 / 2 ∧
      sleepTime 3 (1 / 2) ≤ 31 ∧
      ∀ b : Nat, 3 ≤ b → sleepTime 3 (1 / 2) ≤ sleepTime b (1 / 2) :=
  backoff_bound 3 (1 / 2) (by norm_num) (by norm_num) (by norm_num) (by norm_num)

/-! ## C7: checkpoint saves are not atomic -/

/-- C7 counterexample: `save_checkpoint` opens the checkpoint file itself
for writing (truncating it in place); it never writes to a temporary path
and renames, so the spec's atomic-save discipline fails on it. -/
theorem checkpoint_save_not_atomic_cex :
    ¬ WritesViaTempRename (save_checkpoint_ops (fun _ => "\x7b\x7d") [("BTC-1m", 42)])
        CHECKPOINT_FILE :=
  fun h => h.1 (List.mem_cons_self _ _)

/-- C7 (amended): `save_checkpoint` overwrites the persisted file with the
serialization of the full mapping by opening the target path directly and
writing into it; no rename (and no temporary path) is involved, so an
interrupted save can leave a partially written file. -/
theorem checkpoint_save_amended (dumps : List (String × Int) → String)
    (ckpt : List (String × Int)) :
    save_checkpoint_ops dumps ckpt =
        [FileOp.openTrunc CHECKPOINT_FILE, FileOp.write CHECKPOINT_FILE (dumps ckpt)] ∧
      ∀ src dst, FileOp.rename src dst ∉ save_checkpoint_ops dumps ckpt := by
  refine ⟨rfl, ?_⟩
  intro src dst
  simp [save_checkpoint_ops]

/-! ## Helper lemmas: the fetch loop trace -/

/-- Prepending events prepends to the trace. -/
theorem trace_withTrace (evs : List Event) (r : FetchResult) :
    (r.withTrace evs).trace = evs ++ r.trace := by
  cases r <;> rfl

/-- The per-key loop always produces a well-formed trace above its
starting point. -/
theorem fetchLoop_goodTrace (fetch : Int → Int → Except FetchErr (List Row))
    (nowMs chunkMs : Int) (hchunk : 0 < chunkMs) :
    ∀ (N : Nat) (startMs : Int) (ckpt : Option Int) (ds : Option (List Row)),
      (nowMs - startMs).toNat ≤ N →
      GoodTrace fetch startMs (fetchLoop fetch nowMs chunkMs hchunk startMs ckpt ds).trace := by
  intro N
  induction N with
  | zero =>
      intro startMs ckpt ds hN
      rw [fetchLoop, dif_neg (by omega)]
      exact GoodTrace.nil startMs
  | succ N ih =>
      intro startMs ckpt ds hN
      rw [fetchLoop]
      by_cases h : startMs < nowMs
      · rw [dif_pos h]
        have hlt : startMs < min (startMs + chunkMs) nowMs := by omega
        rcases hf : fetch startMs (min (startMs + chunkMs) nowMs) with e | data
        · simp only [hf]
          exact GoodTrace.nil startMs
        · simp only [hf]
          rw [trace_withTrace]
          have hrec := ih (min (startMs + chunkMs) nowMs)
            (some (min (startMs + chunkMs) nowMs))
            (if data.isEmpty then ds else some (save_parquet_incremental ds data))
            (by omega)
          by_cases hd : data.isEmpty
          · have hdata : data = [] := List.isEmpty_iff.mp hd
            simp only [hd, if_true, List.nil_append]
            exact GoodTrace.ckptOnly startMs _ _ hlt (hdata ▸ hf)
              (by simpa [hd] using hrec)
          · simp only [hd, if_false, List.cons_append, List.nil_append]
            have hne : data ≠ [] := fun hnil => hd (by simp [hnil])
            exact GoodTrace.mergeThenCkpt startMs _ data _ hlt hne hf
              (by simpa [hd] using hrec)
      · rw [dif_neg h]
        exact GoodTrace.nil startMs

/-- A well-formed trace's checkpoint writes form a strictly increasing
chain above the starting point. -/
theorem goodTrace_chain (fetch : Int → Int → Except FetchErr (List Row)) (lo : Int)
    (tr : List Event) (h : GoodTrace fetch lo tr) :
    (lo :: ckptWrites tr).Chain' (· < ·) := by
  induction h with
  | nil lo => exact List.chain'_singleton lo
  | ckptOnly lo e tl hlt hf htl ih =>
      show (lo :: e :: ckptWrites tl).Chain' (· < ·)
      exact List.chain'_cons.mpr ⟨hlt, ih⟩
  | mergeThenCkpt lo e rows tl hlt hne hf htl ih =>
      show (lo :: e :: ckptWrites tl).Chain' (· < ·)
      exact List.chain'_cons.mpr ⟨hlt, ih⟩

/-! ## C4: checkpoint monotonicity and merge-before-checkpoint order -/

/-- C4: across one run of the per-key loop, the trace is well formed — a
chunk's checkpoint write happens only immediately after that chunk's rows
(if any) were merged, never before — and the checkpoint values written
form a strictly increasing (hence non-decreasing) chain above the
starting point. -/
theorem checkpoint_monotone (fetch : Int → Int → Except FetchErr (List Row))
    (nowMs chunkMs : Int) (hchunk : 0 < chunkMs) (startMs : Int)
    (ckpt : Option Int) (ds : Option (List Row)) :
    GoodTrace fetch startMs (fetchLoop fetch nowMs chunkMs hchunk startMs ckpt ds).trace ∧
      ((startMs :: ckptWrites
          (fetchLoop fetch nowMs chunkMs hchunk startMs ckpt ds).trace).Chain' (· < ·)) := by
  have hg := fetchLoop_goodTrace fetch nowMs chunkMs hchunk
    (nowMs - startMs).toNat startMs ckpt ds le_rfl
  exact ⟨hg, goodTrace_chain fetch _ _ hg⟩

/-- C4 witness: the loop from 0 to 10 with chunk width 4 and an
empty-result source. -/
theorem checkpoint_monotone_witness :
    GoodTrace (fun _ _ => Except.ok []) 0
        (fetchLoop (fun _ _ => Except.ok []) 10 4 (by decide) 0 none none).trace ∧
      ((0 :: ckptWrites
          (fetchLoop (fun _ _ => Except.ok []) 10 4 (by decide) 0 none none).trace).Chain'
        (· < ·)) :=
  checkpoint_monotone (fun _ _ => Except.ok []) 10 4 (by decide) 0 none none

/-! ## C8: rate-limit exhaustion aborts without advancing the checkpoint -/

/-- C8: when every one of the 10 attempts for the current chunk hits a
429, the retry wrapper raises the retries-exhausted error, the run aborts
at that chunk, and the key's checkpoint and dataset remain at their
pre-chunk values — no checkpoint write happens for the failed chunk. -/
theorem rate_limit_abort (attempts : Int → Int → Nat → Attempt)
    (nowMs chunkMs : Int) (hchunk : 0 < chunkMs) (startMs : Int)
    (ckpt : Option Int) (ds : Option (List Row)) (hlt : startMs < nowMs)
    (hrl : ∀ a, 1 ≤ a → a ≤ 10 →
      attempts startMs (min (startMs + chunkMs) nowMs) a = .rateLimit) :
    fetchLoop (fetchChunk attempts) nowMs chunkMs hchunk startMs ckpt ds =
      .aborted .rateLimitExhausted ckpt ds [] := by
  have hex : safe_call_with_retry (attempts startMs (min (startMs + chunkMs) nowMs)) 10
      = .exhausted :=
    (safeCallFrom_exhausted_iff _ 10 10 1 (by omega)).mpr fun a h1 h2 => hrl a h1 h2
  have hch : fetchChunk attempts startMs (min (startMs + chunkMs) nowMs)
      = .error .rateLimitExhausted := by
    unfold fetchChunk
    rw [hex]
  rw [fetchLoop, dif_pos hlt, hch]

/-- C8 witness: a concrete always-rate-limited source aborts the loop
with the checkpoint still at its pre-chunk value. -/
theorem rate_limit_abort_witness :
    fetchLoop (fetchChunk fun _ _ _ => Attempt.rateLimit) 100 10 (by decide) 0 (some 0) none
      = FetchResult.aborted .rateLimitExhausted (some 0) none [] :=
  rate_limit_abort (fun _ _ _ => Attempt.rateLimit) 100 10 (by decide) 0 (some 0) none
    (by decide) fun _ _ _ => rfl

/-! ## Helper lemmas: the volume sort -/

/-- `descVol` is transitive. -/
theorem descVol_trans : ∀ a b c : String × ℚ, descVol a b → descVol b c → descVol a c := by
  intro a b c hab hbc
  simp only [descVol, decide_eq_true_eq] at *
  exact le_trans hbc hab

/-- `descVol` is total. -/
theorem descVol_total : ∀ a b : String × ℚ, descVol a b || descVol b a := by
  intro a b
  simp only [descVol]
  rcases le_total b.2 a.2 with h | h <;> simp [h]

/-! ## C9: instrument selector -/

/-- C9 counterexample: with the static instrument list configured empty
(`COINS = []`, which is not `None`), `get_available_perp_coins` returns
the empty list unchanged instead of invoking the top-volume selector as
the claim requires for an absent/empty list. -/
theorem selector_empty_list_cex :
    get_available_perp_coins (some []) [("BTC", 1)] = [] ∧
      get_top_volume_coins [("BTC", 1)] 20 = ["BTC"] ∧
      ([] : List String) ≠ ["BTC"] := by
  refine ⟨rfl, ?_, by decide⟩
  simp [get_top_volume_coins, sortedUniverse]

/-- C9 (amended): a configured (non-`None`) instrument list — even an
empty one — is returned unchanged; the selector runs only when the list
is absent (`None`) and then returns the first `max_count = 20` names of
the volume list sorted descending by daily notional volume, a stable sort
that keeps ties in input order. -/
theorem selector_amended :
    (∀ cs univ, get_available_perp_coins (some cs) univ = cs) ∧
      (∀ univ, get_available_perp_coins none univ = get_top_volume_coins univ 20) ∧
      (∀ univ, (sortedUniverse univ).Pairwise fun a b : String × ℚ => b.2 ≤ a.2) ∧
      (∀ univ, List.Perm (sortedUniverse univ) univ) ∧
      (∀ (univ : List (String × ℚ)) (a b : String × ℚ), a.2 = b.2 →
        List.Sublist [a, b] univ → List.Sublist [a, b] (sortedUniverse univ)) ∧
      ∀ univ n, get_top_volume_coins univ n = ((sortedUniverse univ).take n).map Prod.fst := by
  refine ⟨fun _ _ => rfl, fun _ => rfl, ?_, ?_, ?_, fun _ _ => rfl⟩
  · intro univ
    exact (List.sorted_mergeSort descVol_trans descVol_total univ).imp
      fun h => of_decide_eq_true h
  · intro univ
    exact List.mergeSort_perm univ descVol
  · intro univ a b hab hsub
    exact List.pair_sublist_mergeSort descVol_trans descVol_total
      (by simp [descVol, hab]) hsub

/-- C9 witness: two instruments with equal volume keep their input order
through the sort. -/
theorem selector_amended_witness :
    List.Sublist [("A", (5 : ℚ)), ("B", 5)] (sortedUniverse [("A", 5), ("B", 5)]) :=
  selector_amended.2.2.2.2.1 [("A", 5), ("B", 5)] ("A", 5) ("B", 5) rfl
    (List.Sublist.refl _)

end HLMinutes
